import Mathlib

/-!
Verification of the pie-crust adaptive octree sculpting core.

This file shallowly embeds the parts of the repository's Rust source that
the checked claims are about: `src/tool/action.rs` (the Place/Remove
combine rules), `src/tool/aabb.rs` (AABB intersection classification and
octree subdivision), `src/utils.rs` (corner-interpolation cell
subdivision), `src/naive_octree.rs` (the apply-tool subdivision decision),
`src/octant_map/mod.rs` and `src/octant_map/octant_key.rs` (the map-based
octree and its bit-packed key), and `src/marching_cubes.rs`
(`vert_interp`).

Scalar `f32` densities and coordinates are modelled as rationals: every
operation these claims touch (comparison, min/max, negation, halving,
linear interpolation at exactly representable parameters) acts on exact
values in the source as well, so the rational model is faithful for the
statements proved here.  The 64-bit packed keys are modelled as natural
numbers with explicit bit-slice arithmetic (`/ 2 ^ p % 2 ^ w`).
-/

namespace PieCrust

/-- The sculpting action, from `src/tool/action.rs`. -/
inductive Action where
  | Remove : Action
  | Place : Action

/-- Embedding of `Action::apply_value` from `src/tool/action.rs`.  The Rust
function mutates `point` in place; here the updated density is returned. -/
def Action.apply_value (a : Action) (point val : ℚ) : ℚ :=
  match a with
  | .Place => if val > point then val else point
  | .Remove =>
      if val > 0 then -1
      else if val > -1 then
        (if point > 0 then min point (-val) else min point val)
      else point

/-- C5: Place sets the density to `max(point, tool_value)`, never decreases
any density, and is idempotent for a fixed tool value. -/
theorem c5_place_max_idempotent (point val : ℚ) :
    Action.apply_value .Place point val = max point val ∧
    point ≤ Action.apply_value .Place point val ∧
    Action.apply_value .Place (Action.apply_value .Place point val) val =
      Action.apply_value .Place point val := by
  unfold Action.apply_value
  rcases le_or_lt val point with h | h
  · simp [not_lt.mpr h, max_eq_left h]
  · simp [h, max_eq_right h.le, h.le, not_lt.mpr (le_refl val)]

/-- C1 counterexample: `Remove` with a stored density of `1` and a tool
value of `1/2` writes `-1`, not `min(1, -1/2) = -1/2`. -/
theorem c1_remove_not_min_counterexample :
    Action.apply_value .Remove 1 (1/2) ≠ min 1 (-(1/2) : ℚ) := by
  norm_num [Action.apply_value]

/-- C1 amended: `Remove` writes `-1` whenever the tool value is positive;
for tool values in `(-1, 0]` it takes `min(point, -val)` on positive
densities and `min(point, val)` on non-positive ones; tool values
`≤ -1` leave the density unchanged. -/
theorem c1_remove_characterization (point val : ℚ) :
    (0 < val → Action.apply_value .Remove point val = -1) ∧
    (-1 < val → val ≤ 0 → 0 < point →
      Action.apply_value .Remove point val = min point (-val)) ∧
    (-1 < val → val ≤ 0 → point ≤ 0 →
      Action.apply_value .Remove point val = min point val) ∧
    (val ≤ -1 → Action.apply_value .Remove point val = point) := by
  unfold Action.apply_value
  refine ⟨?_, ?_, ?_, ?_⟩
  · intro h
    rw [if_pos h]
  · intro h1 h0 hp
    split_ifs <;> first | rfl | linarith
  · intro h1 h0 hp
    split_ifs <;> first | rfl | linarith
  · intro h
    split_ifs <;> first | rfl | linarith

/-- Witness for `c1_remove_characterization` at `point = 1`, `val = 1/2`. -/
theorem c1_remove_characterization_witness :
    Action.apply_value .Remove 1 (1/2) = -1 :=
  (c1_remove_characterization 1 (1/2)).1 (by norm_num)

/-- C6 counterexample: `Remove` with tool value `0` changes a stored
density of `1/2` to `0`, so it does not leave every density unchanged. -/
theorem c6_remove_zero_changes_density :
    Action.apply_value .Remove (1/2) 0 ≠ (1/2 : ℚ) := by
  norm_num [Action.apply_value]

/-- C6 amended: `Remove` with tool value `0` sets the density to
`min(point, 0)` — densities that are already `≤ 0` are unchanged, while
positive densities are clamped down to `0`. -/
theorem c6_remove_zero_min (point : ℚ) :
    Action.apply_value .Remove point 0 = min point 0 := by
  unfold Action.apply_value
  rcases le_or_lt point 0 with h | h
  · simp [not_lt.mpr h, min_eq_left h]
  · simp [h]

/-- C10: on the clamped density domain `[-1, 1]`, `Remove` never increases
the stored density. -/
theorem c10_remove_nonincreasing (point val : ℚ)
    (hlo : -1 ≤ point) (hhi : point ≤ 1) :
    Action.apply_value .Remove point val ≤ point := by
  have _h := hhi
  unfold Action.apply_value
  split_ifs <;> simp_all [min_le_left]

/-- Witness for `c10_remove_nonincreasing` at `point = 0`, `val = 2`. -/
theorem c10_remove_nonincreasing_witness :
    Action.apply_value .Remove 0 2 ≤ 0 :=
  c10_remove_nonincreasing 0 2 (by norm_num) (by norm_num)

/-- A 3-component vector of exact scalars, modelling `glam::Vec3`. -/
structure Vec3 where
  x : ℚ
  y : ℚ
  z : ℚ
deriving DecidableEq

/-- Axis-aligned bounding box, from `src/tool/aabb.rs`: a start corner and
a (nonnegative) size vector. -/
structure AABB where
  start : Vec3
  size : Vec3
deriving DecidableEq

/-- Result of `AABB::intersect`, from `src/tool/aabb.rs`. -/
inductive IntersectType where
  | DoesNotIntersect : IntersectType
  | Intersects : AABB → IntersectType
  | Contains : IntersectType
  | ContainedBy : IntersectType
deriving DecidableEq

/-- Per-axis intersection classification, from the local
`AxisIntersectType` enum inside `AABB::intersect`. -/
inductive AxisIntersectType where
  | DoesNotIntersect : AxisIntersectType
  | Intersects : ℚ → ℚ → AxisIntersectType
  | Contains : AxisIntersectType
  | ContainedBy : AxisIntersectType
deriving DecidableEq

/-- One axis of `AABB::intersect`: the interval `[t0, t1)`-style
classification performed on `(start, start + size)` pairs, with the exact
branch order and strictness of the source. -/
def axis_intersect (t0 t1 o0 o1 : ℚ) : AxisIntersectType :=
  if t0 ≥ o1 ∨ t1 ≤ o0 then .DoesNotIntersect
  else if t0 ≤ o0 ∧ t1 ≥ o1 then .Contains
  else if (t0 ≥ o0 ∧ t1 < o1) ∨ (t0 > o0 ∧ t1 ≤ o1) then .ContainedBy
  else .Intersects (max t0 o0) (min t1 o1)

/-- Resolution of one axis in the mixed (`Intersects`) arm of
`AABB::intersect`: produces the `(start, size)` pair for that axis of the
intersection box.  The `DoesNotIntersect` case is unreachable there (the
source marks it `unreachable!`); it is mapped to `(0, 0)`. -/
def axis_resolve (a : AxisIntersectType) (selfStart selfSize oStart oSize : ℚ) :
    ℚ × ℚ :=
  match a with
  | .Intersects s e => (s, e - s)
  | .Contains => (oStart, oSize)
  | .ContainedBy => (selfStart, selfSize)
  | .DoesNotIntersect => (0, 0)

/-- Embedding of `AABB::intersect` from `src/tool/aabb.rs`. -/
def AABB.intersect (a b : AABB) : IntersectType :=
  match (axis_intersect a.start.x (a.start.x + a.size.x) b.start.x (b.start.x + b.size.x),
      axis_intersect a.start.y (a.start.y + a.size.y) b.start.y (b.start.y + b.size.y),
      axis_intersect a.start.z (a.start.z + a.size.z) b.start.z (b.start.z + b.size.z)) with
  | (.Contains, .Contains, .Contains) => .Contains
  | (.ContainedBy, .ContainedBy, .ContainedBy) => .ContainedBy
  | (.DoesNotIntersect, _, _) => .DoesNotIntersect
  | (_, .DoesNotIntersect, _) => .DoesNotIntersect
  | (_, _, .DoesNotIntersect) => .DoesNotIntersect
  | (ax, ay, az) =>
      let rx := axis_resolve ax a.start.x a.size.x b.start.x b.size.x
      let ry := axis_resolve ay a.start.y a.size.y b.start.y b.size.y
      let rz := axis_resolve az a.start.z a.size.z b.start.z b.size.z
      .Intersects ⟨⟨rx.1, ry.1, rz.1⟩, ⟨rx.2, ry.2, rz.2⟩⟩

/-- The identity AABB extending from the origin to `(1,1,1)`,
`AABB::ONE_CUBIC_METER` in the source. -/
def AABB.one_cubic_meter : AABB := ⟨⟨0, 0, 0⟩, ⟨1, 1, 1⟩⟩

/-- Axis lemma: if the other box's axis interval is classified
`ContainedBy` this one's, then from this box's side the same axis is
classified `Contains`. -/
theorem axis_contained_by_swap (t0 t1 o0 o1 : ℚ)
    (h : axis_intersect o0 o1 t0 t1 = .ContainedBy) :
    axis_intersect t0 t1 o0 o1 = .Contains := by
  unfold axis_intersect at h
  split_ifs at h with h1 h2 h3
  push_neg at h1
  have c2 : t0 ≤ o0 ∧ t1 ≥ o1 := by
    rcases h3 with ⟨u, v⟩ | ⟨u, v⟩
    · exact ⟨u, le_of_lt v⟩
    · exact ⟨le_of_lt u, v⟩
  have c1 : ¬(t0 ≥ o1 ∨ t1 ≤ o0) := by
    push_neg
    exact ⟨h1.2, h1.1⟩
  unfold axis_intersect
  rw [if_neg c1, if_pos c2]

/-- Axis lemma: a non-degenerate interval compared with itself falls into
the `Contains` branch of the per-axis classification. -/
theorem axis_self_contains (t0 t1 : ℚ) (hlt : t0 < t1) :
    axis_intersect t0 t1 t0 t1 = .Contains := by
  unfold axis_intersect
  rw [if_neg (by push_neg; exact ⟨hlt, hlt⟩), if_pos ⟨le_refl t0, le_refl t1⟩]

/-- An AABB with strictly positive size intersects itself as `Contains`. -/
theorem intersect_self_contains (a : AABB) (hx : 0 < a.size.x)
    (hy : 0 < a.size.y) (hz : 0 < a.size.z) :
    AABB.intersect a a = .Contains := by
  unfold AABB.intersect
  rw [axis_self_contains _ _ (by linarith), axis_self_contains _ _ (by linarith),
    axis_self_contains _ _ (by linarith)]

/-- C7 counterexample: for the non-degenerate unit box `u`,
`u.intersect(u) = Contains`, so at `a = b = u` the claimed equivalence
between `a.intersect(b) = Contains` and `b.intersect(a) = ContainedBy`
fails: the left side holds while the right side does not. -/
theorem c7_contains_containedby_not_iff :
    ¬ (AABB.intersect AABB.one_cubic_meter AABB.one_cubic_meter = .Contains ↔
       AABB.intersect AABB.one_cubic_meter AABB.one_cubic_meter = .ContainedBy) := by
  intro hiff
  have h1 : AABB.intersect AABB.one_cubic_meter AABB.one_cubic_meter = .Contains :=
    intersect_self_contains _ (by norm_num [AABB.one_cubic_meter])
      (by norm_num [AABB.one_cubic_meter]) (by norm_num [AABB.one_cubic_meter])
  exact absurd (h1.symm.trans (hiff.mp h1)) (by simp)

/-- C7 amended: for AABBs with nonnegative sizes, `b.intersect(a) =
ContainedBy` implies `a.intersect(b) = Contains` (the converse fails when
the two boxes coincide, see the counterexample), and every AABB with
strictly positive size satisfies `a.intersect(a) = Contains`. -/
theorem c7_aabb_duality (a b : AABB)
    (ha : 0 ≤ a.size.x ∧ 0 ≤ a.size.y ∧ 0 ≤ a.size.z)
    (hb : 0 ≤ b.size.x ∧ 0 ≤ b.size.y ∧ 0 ≤ b.size.z) :
    (AABB.intersect b a = .ContainedBy → AABB.intersect a b = .Contains) ∧
    (0 < a.size.x → 0 < a.size.y → 0 < a.size.z →
      AABB.intersect a a = .Contains) := by
  have _ha := ha
  have _hb := hb
  constructor
  · intro h
    unfold AABB.intersect at h
    rcases hx : axis_intersect b.start.x (b.start.x + b.size.x) a.start.x (a.start.x + a.size.x) with _ | ⟨s, e⟩ | _ | _ <;>
      rcases hy : axis_intersect b.start.y (b.start.y + b.size.y) a.start.y (a.start.y + a.size.y) with _ | ⟨s2, e2⟩ | _ | _ <;>
      rcases hz : axis_intersect b.start.z (b.start.z + b.size.z) a.start.z (a.start.z + a.size.z) with _ | ⟨s3, e3⟩ | _ | _ <;>
      rw [hx, hy, hz] at h <;> simp_all
    unfold AABB.intersect
    rw [axis_contained_by_swap _ _ _ _ hx, axis_contained_by_swap _ _ _ _ hy,
      axis_contained_by_swap _ _ _ _ hz]
  · intro px py pz
    exact intersect_self_contains a px py pz

/-- Witness for `c7_aabb_duality`: the unit box and the box from
`(1/4,1/4,1/4)` of size `(1/4,1/4,1/4)` that it strictly contains. -/
theorem c7_aabb_duality_witness :
    AABB.intersect AABB.one_cubic_meter ⟨⟨1/4, 1/4, 1/4⟩, ⟨1/4, 1/4, 1/4⟩⟩ = .Contains ∧
    AABB.intersect AABB.one_cubic_meter AABB.one_cubic_meter = .Contains := by
  have h := c7_aabb_duality AABB.one_cubic_meter ⟨⟨1/4, 1/4, 1/4⟩, ⟨1/4, 1/4, 1/4⟩⟩
    (by norm_num [AABB.one_cubic_meter]) (by norm_num)
  refine ⟨h.1 ?_, h.2 (by norm_num [AABB.one_cubic_meter])
    (by norm_num [AABB.one_cubic_meter]) (by norm_num [AABB.one_cubic_meter])⟩
  unfold AABB.intersect axis_intersect
  norm_num [AABB.one_cubic_meter]

/-- Linear interpolation `a.lerp(b, t)` as provided by the `lerp` crate
used in `src/utils.rs`: `a + (b - a) * t`. -/
def lerpQ (a b t : ℚ) : ℚ := a + (b - a) * t

namespace Utils

/-- The 27-point grid built by `utils::subdivide_cell` from `src/utils.rs`:
the 8 corner densities of a cell are expanded into a 3x3x3 grid (corners
copied, edge midpoints, face centers and the cell center obtained by
repeated lerp at `t = 1/2`), indexed exactly as in the source (X, then Y,
then Z).  Indices `≥ 27` are never used. -/
def subdivide_points (cell : Fin 8 → ℚ) : ℕ → ℚ :=
  let p0 := cell 0
  let p2 := cell 1
  let p6 := cell 2
  let p8 := cell 3
  let p18 := cell 4
  let p20 := cell 5
  let p24 := cell 6
  let p26 := cell 7
  let p1 := lerpQ p0 p2 (1/2)
  let p3 := lerpQ p0 p6 (1/2)
  let p5 := lerpQ p2 p8 (1/2)
  let p7 := lerpQ p6 p8 (1/2)
  let p9 := lerpQ p0 p18 (1/2)
  let p11 := lerpQ p2 p20 (1/2)
  let p15 := lerpQ p6 p24 (1/2)
  let p17 := lerpQ p8 p26 (1/2)
  let p19 := lerpQ p18 p20 (1/2)
  let p21 := lerpQ p18 p24 (1/2)
  let p23 := lerpQ p20 p26 (1/2)
  let p25 := lerpQ p24 p26 (1/2)
  let p4 := lerpQ p1 p7 (1/2)
  let p10 := lerpQ p9 p11 (1/2)
  let p12 := lerpQ p3 p21 (1/2)
  let p14 := lerpQ p5 p23 (1/2)
  let p16 := lerpQ p7 p25 (1/2)
  let p22 := lerpQ p19 p25 (1/2)
  let p13 := lerpQ p4 p22 (1/2)
  fun n =>
    match n with
    | 0 => p0 | 1 => p1 | 2 => p2 | 3 => p3 | 4 => p4 | 5 => p5 | 6 => p6
    | 7 => p7 | 8 => p8 | 9 => p9 | 10 => p10 | 11 => p11 | 12 => p12
    | 13 => p13 | 14 => p14 | 15 => p15 | 16 => p16 | 17 => p17 | 18 => p18
    | 19 => p19 | 20 => p20 | 21 => p21 | 22 => p22 | 23 => p23 | 24 => p24
    | 25 => p25 | 26 => p26 | _ => 0

/-- The grid start index of each child octant in `make_cell`, and equally
the grid offset of each corner within a child: both are the Z-order offsets
`{0, 1, 3, 4, 9, 10, 12, 13}` of the 3x3x3 grid. -/
def cell_offsets : Fin 8 → ℕ
  | 0 => 0 | 1 => 1 | 2 => 3 | 3 => 4 | 4 => 9 | 5 => 10 | 6 => 12 | 7 => 13

/-- The regrouping step of `utils::subdivide_cell`: child `c`'s corner `i`
is grid point `start_index(c) + offset(i)`. -/
def subdivide_cell (cell : Fin 8 → ℚ) : Fin 8 → Fin 8 → ℚ :=
  fun c i => subdivide_points cell (cell_offsets c + cell_offsets i)

set_option maxHeartbeats 1600000 in
/-- All 27 grid points of a uniform cell equal the uniform value. -/
theorem subdivide_points_uniform (v : ℚ) (n : ℕ) (hn : n < 27) :
    subdivide_points (fun _ => v) n = v := by
  interval_cases n <;> simp [subdivide_points, lerpQ]

end Utils

/-- C8: subdividing a uniform cell (all 8 corners equal to `v`) yields 8
children whose 64 corner values all equal `v` exactly. -/
theorem c8_uniform_subdivide (v : ℚ) (c i : Fin 8) :
    Utils.subdivide_cell (fun _ => v) c i = v := by
  apply Utils.subdivide_points_uniform
  fin_cases c <;> fin_cases i <;> decide

/-- Load the `w`-bit field at bit position `p` of a packed key, as
`bitvec`'s LSB-first `view_bits`/`load` does. -/
def getBits (key p w : ℕ) : ℕ := key / 2 ^ p % 2 ^ w

/-- Store value `v` into the `w`-bit field at bit position `p` of a packed
key, leaving all other bits unchanged. -/
def setBits (key p w v : ℕ) : ℕ :=
  key % 2 ^ p + v % 2 ^ w * 2 ^ p + key / 2 ^ (p + w) * 2 ^ (p + w)

/-- Clear bits `lo` (inclusive) to `hi` (exclusive) of a packed key, as
`bits[lo..hi].fill(false)` does. -/
def clearBits (key lo hi : ℕ) : ℕ := key % 2 ^ lo + key / 2 ^ hi * 2 ^ hi

namespace OctantKey

/-- The depth field of an `OctantKey` (bits 59-63), from
`src/octant_map/octant_key.rs`. -/
def depth (key : ℕ) : ℕ := getBits key 59 5

/-- Embedding of `OctantKey::set_depth`: stores the new depth into bits
59-63, then zeroes the cell-index bits from `3 * new_depth` up to bit 57 —
but only when truncating to a nonzero depth; truncating to depth 0 skips
the zeroing entirely. -/
def set_depth (key newDepth : ℕ) : ℕ :=
  let oldDepth := depth key
  let key1 := setBits key 59 5 newDepth
  if newDepth < oldDepth ∧ newDepth ≠ 0 then clearBits key1 (3 * newDepth) 57
  else key1

/-- Embedding of `OctantKey::get_index` for `1 ≤ d ≤ depth`: the 3-bit
cell index stored for depth level `d`. -/
def get_index (key d : ℕ) : ℕ := getBits key (3 * (d - 1)) 3

/-- Embedding of `OctantKey::push`: increments the depth via `set_depth`,
then stores the new index in the newly valid segment. -/
def push (key idx : ℕ) : ℕ :=
  let d := depth key + 1
  let key1 := set_depth key d
  setBits key1 (3 * (d - 1)) 3 idx

/-- Embedding of `OctantKey::pop`: reads the deepest segment's index and
truncates the depth by one via `set_depth`; returns the index and the
updated key. -/
def pop (key : ℕ) : ℕ × ℕ :=
  let d := depth key
  (get_index key d, set_depth key (d - 1))

/-- The invariant checked by `OctantKey::_sanity_check`: depth at most 19,
every cell-index segment at or beyond the depth is all zeros, and the two
funny bits (57-58) are zero. -/
def sanity_check (key : ℕ) : Bool :=
  decide (depth key ≤ 19) &&
  ((List.range 19).all fun i => decide (depth key ≤ i → getBits key (3 * i) 3 = 0)) &&
  decide (getBits key 57 2 = 0)

end OctantKey

/-- C3 (failing input): pushing index 5 onto the root `OctantKey` (packed
value 0, depth 0) and then popping returns 5, as the claim says, but
leaves the packed key at 5 instead of restoring it to 0: `set_depth`
skips the segment zeroing when the new depth is 0, so `pop` is not
`push`'s exact inverse at depth 0, and the resulting key violates
`OctantKey::_sanity_check`. -/
theorem c3_octant_push_pop_not_inverse :
    (OctantKey.pop (OctantKey.push 0 5)).1 = 5 ∧
    (OctantKey.pop (OctantKey.push 0 5)).2 = 5 ∧
    OctantKey.sanity_check ((OctantKey.pop (OctantKey.push 0 5)).2) = false := by
  decide

/-- C4 (failing input): the depth-1 `OctantKey` addressing child 5 of the
root (packed value `2^59 + 5`) satisfies the key invariant, but
`set_depth(0)` leaves the stale segment `101` in bits 0-2 (the result is
the packed value 5 at depth 0), breaking the invariant that all segments
beyond the depth are zero. -/
theorem c4_octant_set_depth_zero_stale :
    OctantKey.sanity_check (OctantKey.push 0 5) = true ∧
    OctantKey.set_depth (OctantKey.push 0 5) 0 = 5 ∧
    OctantKey.sanity_check (OctantKey.set_depth (OctantKey.push 0 5) 0) = false := by
  decide

/-- Modelled from the spec: the crate-root constant `CUBE_CORNERS` (the
`lib.rs` revision defining it is not among the provided sources; only its
uses are).  Per the spec's data model, corner `i` of the unit cube is
obtained by enumerating the bits of `i` as `(x, y, z)` selectors, which
also reproduces the repository's own `octree_subdivide_test` and
`tree_key_modify_test` vectors. -/
def cube_corner (i : ℕ) : Vec3 :=
  ⟨if i % 2 = 1 then 1 else 0, if i / 2 % 2 = 1 then 1 else 0,
    if i / 4 % 2 = 1 then 1 else 0⟩

/-- Embedding of `AABB::calculate_corners` from `src/tool/aabb.rs`:
corner `i` is `start + size * CUBE_CORNERS[i]`, componentwise. -/
def AABB.calculate_corners (a : AABB) (i : Fin 8) : Vec3 :=
  ⟨a.start.x + a.size.x * (cube_corner i).x,
   a.start.y + a.size.y * (cube_corner i).y,
   a.start.z + a.size.z * (cube_corner i).z⟩

/-- Embedding of `AABB::octree_child` from `src/tool/aabb.rs`: child
`index` starts at `start + half_size * CUBE_CORNERS[index]` and has size
`half_size`. -/
def AABB.octree_child (a : AABB) (idx : ℕ) : AABB :=
  ⟨⟨a.start.x + a.size.x / 2 * (cube_corner idx).x,
    a.start.y + a.size.y / 2 * (cube_corner idx).y,
    a.start.z + a.size.z / 2 * (cube_corner idx).z⟩,
   ⟨a.size.x / 2, a.size.y / 2, a.size.z / 2⟩⟩

/-- Rust's `f32::signum` on the exact scalar model: `-1` for negative
values, `1` otherwise (`+0.0` has signum `1.0`; the rational model has no
negative zero). -/
def signum (q : ℚ) : ℚ := if q < 0 then -1 else 1

/-- Rust's `f32::is_sign_negative` on the exact scalar model (again
negative zero does not arise for rationals). -/
def is_sign_negative (q : ℚ) : Bool := decide (q < 0)

/-- The `windows(2)` adjacent-pair scan of `apply_tool_impl` in
`src/naive_octree.rs`: true when some adjacent pair of the 8 corner values
has differing `signum`. -/
def diff_signs (vals : Fin 8 → ℚ) : Bool :=
  (List.finRange 7).any fun k => decide (signum (vals k.castSucc) ≠ signum (vals k.succ))

/-- The `windows(2)` adjacent-pair scan of `apply_tool_at_octant` in
`src/octant_map/mod.rs`: true when some adjacent pair of the 8 corner
values has differing `is_sign_negative`. -/
def newvals_intersect (vals : Fin 8 → ℚ) : Bool :=
  (List.finRange 7).any fun k =>
    is_sign_negative (vals k.castSucc) != is_sign_negative (vals k.succ)

/-- The check AABB chosen by both apply-tool implementations:
`aoe_aabb` for `Remove`, `tool_aabb` for `Place`. -/
def check_aabb_for (action : Action) (tool_aabb aoe_aabb : AABB) : AABB :=
  match action with
  | .Remove => aoe_aabb
  | .Place => tool_aabb

/-- Matches the `ContainedBy | Intersects(_)` pattern of the convex
subdivision test in `src/naive_octree.rs`. -/
def isContainedByOrIntersects (t : IntersectType) : Bool :=
  match t with
  | .ContainedBy => true
  | .Intersects _ => true
  | _ => false

/-- A sculpting tool as `NaiveOctreeCell::apply_tool_impl` consumes it: a
density contribution per world position (`Tool::<F>::value`, the affine
transform already applied) and the `ToolFunc::is_concave` flag
(`is_convex` is its negation, per the trait's default method). -/
structure ToolN where
  value : Vec3 → ℚ
  isConcave : Bool

/-- The `ToolFunc::is_convex` default method: `!is_concave()`. -/
def ToolN.is_convex (t : ToolN) : Bool := !t.isConcave

/-- A cell of `NaiveOctree` from `src/naive_octree.rs`: 8 corner densities
and an optional array of 8 children. -/
inductive NaiveOctreeCell : Type where
  | mk : (Fin 8 → ℚ) → Option (Fin 8 → NaiveOctreeCell) → NaiveOctreeCell

/-- The `values` field of a cell. -/
def NaiveOctreeCell.values : NaiveOctreeCell → Fin 8 → ℚ
  | .mk v _ => v

/-- The `children` field of a cell. -/
def NaiveOctreeCell.children : NaiveOctreeCell → Option (Fin 8 → NaiveOctreeCell)
  | .mk _ c => c

/-- Unfolding lemma for the `children` accessor. -/
theorem NaiveOctreeCell.children_mk (v : Fin 8 → ℚ)
    (c : Option (Fin 8 → NaiveOctreeCell)) :
    (NaiveOctreeCell.mk v c).children = c := rfl

/-- Embedding of `NaiveOctreeCell::subdivide_cell`: a no-op when children
exist, otherwise builds 8 leaf children with corner values interpolated
from the cell's values by `utils::subdivide_cell`. -/
def NaiveOctreeCell.subdivide_cell (c : NaiveOctreeCell) : NaiveOctreeCell :=
  if c.children.isSome then c
  else .mk c.values (some fun i => .mk (Utils.subdivide_cell c.values i) none)

/-- The new corner values computed by `apply_tool_impl` before any
subdivision: the action applied to each old corner value and the tool's
value at the corresponding corner of the cell's AABB. -/
def new_values (tool : ToolN) (action : Action) (values : Fin 8 → ℚ)
    (cell_aabb : AABB) : Fin 8 → ℚ :=
  fun i => action.apply_value (values i) (tool.value (AABB.calculate_corners cell_aabb i))

/-- Embedding of `NaiveOctreeCell::apply_tool_impl` from
`src/naive_octree.rs`: computes the new corner values from the old ones,
subdivides (interpolating the old values) when the cell is a leaf below
`max_depth` and the convex or concave trigger fires, then commits the new
values. -/
def NaiveOctreeCell.apply_tool_impl (cell : NaiveOctreeCell) (tool : ToolN)
    (tool_aabb aoe_aabb : AABB) (action : Action) (cell_aabb : AABB)
    (current_depth max_depth : ℕ) : NaiveOctreeCell :=
  let newvals := new_values tool action cell.values cell_aabb
  let ds := diff_signs newvals
  let check_aabb := check_aabb_for action tool_aabb aoe_aabb
  let cell1 :=
    if cell.children.isNone && decide (current_depth < max_depth) &&
        ((tool.is_convex && (ds || isContainedByOrIntersects (AABB.intersect check_aabb cell_aabb))) ||
         (tool.isConcave && !decide (AABB.intersect aoe_aabb cell_aabb = .DoesNotIntersect)))
    then cell.subdivide_cell else cell
  .mk newvals cell1.children

namespace OctantKey

/-- Embedding of `OctantKey::iter`: the cell indices up to the key's
depth, shallowest first. -/
def iterList (key : ℕ) : List ℕ :=
  (List.range (depth key)).map fun i => getBits key (3 * i) 3

/-- Embedding of `OctantKey::aabb`: fold `octree_child` over the path
starting from `ONE_CUBIC_METER`. -/
def aabb (key : ℕ) : AABB :=
  (iterList key).foldl AABB.octree_child AABB.one_cubic_meter

/-- Embedding of `OctantKey::scale`: `1 / 2^depth`. -/
def scale (key : ℕ) : ℚ := 1 / 2 ^ depth key

/-- Embedding of `OctantKey::at_max_depth`: depth equal to 19. -/
def at_max_depth (key : ℕ) : Bool := decide (depth key = 19)

end OctantKey

/-- A sculpting tool as `OctantMap::apply_tool_recurse` consumes it: the
`Tool` trait's `value(pos, scale)` plus the `is_concave` flag. -/
structure ToolO where
  value : Vec3 → ℚ → ℚ
  isConcave : Bool

/-- The `Tool::is_convex` default method: `!is_concave()`. -/
def ToolO.is_convex (t : ToolO) : Bool := !t.isConcave

/-- The new corner values computed by `apply_tool_at_octant` in
`src/octant_map/mod.rs`: the action applied to each stored corner value
and the tool's value at the corner of the octant's AABB, at the octant's
scale. -/
def octant_new_values (tool : ToolO) (action : Action) (values : Fin 8 → ℚ)
    (octant : ℕ) : Fin 8 → ℚ :=
  fun i => action.apply_value (values i)
    (tool.value (AABB.calculate_corners (OctantKey.aabb octant) i) (OctantKey.scale octant))

/-- The subdivision decision of `apply_tool_at_octant` inside
`OctantMap::apply_tool_recurse` (`src/octant_map/mod.rs`), with Rust's
operator precedence: the depth/leaf guards bind to the convex branch via
`&&` before the `||` with the concave branch, and the convex branch tests
only `ContainedBy` — not `Intersects`.  `octant` is the packed key;
`hasChildren` is `this.has_children(octant)` and `values` the octant's
stored corner values. -/
def apply_tool_at_octant_subdivides (tool : ToolO) (tool_aabb aoe_aabb : AABB)
    (action : Action) (max_depth octant : ℕ) (hasChildren : Bool)
    (values : Fin 8 → ℚ) : Bool :=
  let newvals := octant_new_values tool action values octant
  let nvi := newvals_intersect newvals
  let check_aabb := check_aabb_for action tool_aabb aoe_aabb
  (!OctantKey.at_max_depth octant && decide (OctantKey.depth octant < max_depth) &&
      !hasChildren &&
      (tool.is_convex &&
        (nvi || decide (AABB.intersect check_aabb (OctantKey.aabb octant) = .ContainedBy)))) ||
    (tool.isConcave &&
      (nvi || !decide (AABB.intersect aoe_aabb (OctantKey.aabb octant) = .DoesNotIntersect)))

/-- C2 counterexample: a concrete run state of
`OctantMap::apply_tool_recurse` where the claimed rule says "subdivide"
but the code does not.  The octant is the root's child 0 (AABB
`[0,1/2]^3`, depth 1, a leaf), `max_depth` is 2, the tool is convex with
value `-1` everywhere, the action is `Remove`, the stored corner values
are all `-1` (no sign change), and the check AABB
`[1/4,3/4] x [0,1/4] x [0,1/4]` intersects the cell's AABB with result
`Intersects` — yet the subdivision decision evaluates to `false`, because
the convex branch tests only `ContainedBy`. -/
theorem c2_octant_intersects_no_subdivide :
    apply_tool_at_octant_subdivides ⟨fun _ _ => -1, false⟩
        ⟨⟨1/4, 0, 0⟩, ⟨1/2, 1/4, 1/4⟩⟩ ⟨⟨1/4, 0, 0⟩, ⟨1/2, 1/4, 1/4⟩⟩
        .Remove 2 (OctantKey.push 0 0) false (fun _ => -1) = false ∧
    isContainedByOrIntersects
      (AABB.intersect ⟨⟨1/4, 0, 0⟩, ⟨1/2, 1/4, 1/4⟩⟩
        (OctantKey.aabb (OctantKey.push 0 0))) = true ∧
    OctantKey.depth (OctantKey.push 0 0) < 2 := by
  have hiter : OctantKey.iterList (OctantKey.push 0 0) = [0] := by decide
  have haabb : OctantKey.aabb (OctantKey.push 0 0) = ⟨⟨0, 0, 0⟩, ⟨1/2, 1/2, 1/2⟩⟩ := by
    unfold OctantKey.aabb
    rw [hiter]
    simp [AABB.octree_child, AABB.one_cubic_meter, cube_corner]
  have hint : AABB.intersect ⟨⟨1/4, 0, 0⟩, ⟨1/2, 1/4, 1/4⟩⟩ ⟨⟨0, 0, 0⟩, ⟨1/2, 1/2, 1/2⟩⟩ =
      .Intersects ⟨⟨1/4, 0, 0⟩, ⟨1/4, 1/4, 1/4⟩⟩ := by
    unfold AABB.intersect axis_intersect
    norm_num [axis_resolve]
  have hnv : octant_new_values ⟨fun _ _ => -1, false⟩ .Remove (fun _ => -1)
      (OctantKey.push 0 0) = fun _ => (-1 : ℚ) := by
    funext i
    norm_num [octant_new_values, Action.apply_value]
  have hnvi : newvals_intersect (fun _ => (-1 : ℚ)) = false := by
    norm_num [newvals_intersect, is_sign_negative]
  have hmax : OctantKey.at_max_depth (OctantKey.push 0 0) = false := by decide
  have hd2 : OctantKey.depth (OctantKey.push 0 0) < 2 := by decide
  refine ⟨?_, ?_, hd2⟩
  · unfold apply_tool_at_octant_subdivides
    rw [hnv, haabb]
    simp only [check_aabb_for, hint, hnvi, hmax]
    simp [ToolO.is_convex]
  · rw [haabb, hint]
    rfl

/-- C2 amended: the claimed subdivision rule holds exactly for
`NaiveOctreeCell::apply_tool_impl` — with a convex tool a cell gains
children (interpolated from its old values) precisely when it is a leaf,
its depth is below `max_depth`, and either the new corner values change
sign between an adjacent pair or the check AABB intersects the cell AABB
as `ContainedBy` or `Intersects`; a non-leaf cell or one at depth `>=
max_depth` keeps its children unchanged.  In
`OctantMap::apply_tool_recurse`, however, the convex trigger is only the
sign change or `ContainedBy`: an `Intersects` result alone does not
subdivide. -/
theorem c2_subdivision_rule :
    (∀ (f : Vec3 → ℚ) (tool_aabb aoe_aabb : AABB) (action : Action)
        (cell : NaiveOctreeCell) (cell_aabb : AABB) (current_depth max_depth : ℕ),
      (cell.apply_tool_impl ⟨f, false⟩ tool_aabb aoe_aabb action cell_aabb
          current_depth max_depth).children =
        if cell.children.isNone && decide (current_depth < max_depth) &&
            (diff_signs (new_values ⟨f, false⟩ action cell.values cell_aabb) ||
              isContainedByOrIntersects
                (AABB.intersect (check_aabb_for action tool_aabb aoe_aabb) cell_aabb))
        then cell.subdivide_cell.children else cell.children) ∧
    (∀ (g : Vec3 → ℚ → ℚ) (tool_aabb aoe_aabb : AABB) (action : Action)
        (max_depth octant : ℕ) (hasChildren : Bool) (values : Fin 8 → ℚ),
      apply_tool_at_octant_subdivides ⟨g, false⟩ tool_aabb aoe_aabb action
          max_depth octant hasChildren values =
        (!OctantKey.at_max_depth octant && decide (OctantKey.depth octant < max_depth) &&
          !hasChildren &&
          (newvals_intersect (octant_new_values ⟨g, false⟩ action values octant) ||
            decide (AABB.intersect (check_aabb_for action tool_aabb aoe_aabb)
              (OctantKey.aabb octant) = .ContainedBy)))) := by
  constructor
  · intro f tool_aabb aoe_aabb action cell cell_aabb current_depth max_depth
    simp only [NaiveOctreeCell.apply_tool_impl, NaiveOctreeCell.children_mk,
      ToolN.is_convex, Bool.not_false, Bool.true_and, Bool.false_and,
      Bool.or_false, apply_ite NaiveOctreeCell.children]
  · intro g tool_aabb aoe_aabb action max_depth octant hasChildren values
    simp only [apply_tool_at_octant_subdivides, ToolO.is_convex, Bool.not_false,
      Bool.true_and, Bool.false_and, Bool.or_false]

/-- Epsilon threshold used by `vert_interp` in `src/marching_cubes.rs`. -/
def interpEps : ℚ := 1 / 100000

/-- Componentwise linear interpolation of positions,
`Lerp::lerp(p1, p2, t) = p1 + (p2 - p1) * t`. -/
def lerpV (p q : Vec3) (t : ℚ) : Vec3 :=
  ⟨lerpQ p.x q.x t, lerpQ p.y q.y t, lerpQ p.z q.z t⟩

/-- Rust's `f32::clamp(lo, hi)`: `lo` if below, `hi` if above, otherwise
the value itself. -/
def clampQ (x lo hi : ℚ) : ℚ := if x < lo then lo else if x > hi then hi else x

/-- Embedding of `vert_interp` from `src/marching_cubes.rs`: each point is
an edge endpoint's position paired with its density. -/
def vert_interp (point1 point2 : Vec3 × ℚ) : Vec3 :=
  if |point1.2| < interpEps then point1.1
  else if |point2.2| < interpEps then point2.1
  else if |point1.2 - point2.2| < interpEps then point1.1
  else lerpV point1.1 point2.1 (clampQ (-point1.2 / (point2.2 - point1.2)) 0 1)

/-- C9: the marching-cubes edge interpolation returns the first corner
when its density is within `1e-5` of zero; otherwise the second corner
when its density is within `1e-5` of zero; otherwise the first corner when
the two densities are within `1e-5` of each other; and otherwise linearly
interpolates at `t = clamp(-v1/(v2-v1), 0, 1)`, where the divisor is then
bounded away from zero by `1e-5`. -/
theorem c9_vert_interp_spec (p1 p2 : Vec3) (v1 v2 : ℚ) :
    (|v1| < interpEps → vert_interp (p1, v1) (p2, v2) = p1) ∧
    (¬|v1| < interpEps → |v2| < interpEps → vert_interp (p1, v1) (p2, v2) = p2) ∧
    (¬|v1| < interpEps → ¬|v2| < interpEps → |v1 - v2| < interpEps →
      vert_interp (p1, v1) (p2, v2) = p1) ∧
    (¬|v1| < interpEps → ¬|v2| < interpEps → ¬|v1 - v2| < interpEps →
      interpEps ≤ |v2 - v1| ∧
      vert_interp (p1, v1) (p2, v2) = lerpV p1 p2 (clampQ (-v1 / (v2 - v1)) 0 1)) := by
  refine ⟨?_, ?_, ?_, ?_⟩
  · intro h1
    simp [vert_interp, h1]
  · intro h1 h2
    simp [vert_interp, h1, h2]
  · intro h1 h2 h3
    simp [vert_interp, h1, h2, h3]
  · intro h1 h2 h3
    refine ⟨by rw [abs_sub_comm] at h3; exact not_lt.mp h3, ?_⟩
    simp [vert_interp, h1, h2, h3]

/-- Witness for `c9_vert_interp_spec`: with `v1 = 0` the first corner's
position is returned. -/
theorem c9_vert_interp_spec_witness :
    vert_interp (⟨1, 2, 3⟩, 0) (⟨4, 5, 6⟩, 1) = ⟨1, 2, 3⟩ :=
  (c9_vert_interp_spec ⟨1, 2, 3⟩ ⟨4, 5, 6⟩ 0 1).1 (by norm_num [interpEps])

end PieCrust
